import Mathlib

/-
A shallow embedding of the noise-aware conditional-selection (CMUX) engine and
of CRT-domain scalar addition of an FHE integer server key, together with
machine-checked statements of the specification's claims about them.

The embedded source files are
  integer/server_key/crt/scalar_add_crt.rs   (CRT scalar addition tiers)
  integer/server_key/radix_parallel/cmux.rs  (conditional selection engine)

The single-block (shortint) primitives those files call are external to the
excerpted core; they are modelled from the specification's component design
(degree tracker, lookup-table evaluator, bootstrap contract).  Every such
definition carries a doc comment starting with "Modelled from the spec:".
-/

namespace TfheCore

/-- Block parameters shared by all blocks of a ciphertext (data-model
invariant: every block of a ciphertext carries the same
`message_modulus` / `carry_modulus` pair, which also equal the server
key's pair). -/
structure Params where
  msg : Nat
  carry : Nat
  deriving DecidableEq

/-- Total plaintext budget of a block: `message_modulus * carry_modulus`. -/
def Params.q (p : Params) : Nat := p.msg * p.carry

/-- An encrypted digit: `val` is the plaintext value currently represented by
the block payload (an element of `[0, q)`; the opaque ciphertext noise is not
modelled), `degree` is the tracked upper bound used by the capacity tracker. -/
structure Block where
  val : Nat
  degree : Nat
  deriving DecidableEq

/-- Modelled from the spec: the single capacity/precondition error kind
("operation would exceed noise/degree budget") returned by `is_*_possible`
checks. -/
inductive CheckError where
  | capacityExceeded
  deriving DecidableEq

/-- Embedding of Rust `Result<(), CheckError>` as returned by the capacity
checks. -/
inductive CrtCheck where
  | ok
  | error (e : CheckError)
  deriving DecidableEq

/-- Modelled from the spec: shortint `unchecked_scalar_add_assign`.  Adds the
scalar to the encrypted plaintext (which lives in `Z_q`) and adds it to the
tracked degree; no capacity check is made. -/
def uncheckedScalarAddBlock (p : Params) (b : Block) (s : Nat) : Block :=
  ⟨(b.val + s) % p.q, b.degree + s⟩

/-- Modelled from the spec: shortint `is_scalar_add_possible` (degree
tracker, §4.1): a scalar add is possible iff the post-add degree stays under
`message_modulus * carry_modulus`. -/
def isScalarAddPossibleBlock (p : Params) (degree s : Nat) : CrtCheck :=
  if degree + s < p.q then .ok else .error .capacityExceeded

/-- Modelled from the spec: the degree assigned to a freshly bootstrapped
block is the lookup table's output range: the maximum of `f` over the whole
plaintext domain `[0, q)`. -/
def lutMax (p : Params) (f : Nat → Nat) : Nat :=
  ((List.range p.q).map fun x => f x % p.q).foldr max 0

/-- Modelled from the spec: the bootstrap contract
`apply_table(block, table) -> block`, assumed exact: the value becomes
`f(val)` (in `Z_q`) and the degree is reset to the table's output range. -/
def applyLut (p : Params) (f : Nat → Nat) (b : Block) : Block :=
  ⟨f b.val % p.q, lutMax p f⟩

/-- Modelled from the spec: output range of a bivariate table, whose packed
domain pairs a block value with a condition value below `message_modulus`. -/
def bivLutMax (p : Params) (g : Nat → Nat → Nat) : Nat :=
  lutMax p fun u => g (u / p.msg) (u % p.msg)

/-- Modelled from the spec: the bootstrap contract
`apply_bivariate_table(block_a, block_b, table)`, assumed exact. -/
def applyBivLut (p : Params) (g : Nat → Nat → Nat) (b c : Block) : Block :=
  ⟨g b.val c.val % p.q, bivLutMax p g⟩

/-- Modelled from the spec: shortint `unchecked_add_assign`; values add in
`Z_q`, degrees add as bounds. -/
def blockAdd (p : Params) (b c : Block) : Block :=
  ⟨(b.val + c.val) % p.q, b.degree + c.degree⟩

/-- Modelled from the spec: shortint `unchecked_scalar_mul` by a clear
constant; the value is multiplied in `Z_q`, the degree bound multiplies. -/
def scalarMulBlock (p : Params) (b : Block) (k : Nat) : Block :=
  ⟨(b.val * k) % p.q, b.degree * k⟩

/-- Modelled from the spec: `boolean_bitnot`, the cheap local negation of a
boolean block: it encrypts `1 - b` (computed in `Z_q`) and has degree 1. -/
def booleanBitnot (p : Params) (b : Block) : Block :=
  ⟨(p.q + 1 - b.val) % p.q, 1⟩

/-- A trivial zero block, as produced by `create_trivial_zero_assign_radix`:
plaintext 0 with minimal degree 0. -/
def trivialZeroBlock : Block := ⟨0, 0⟩

/-- Derived predicate "carries are empty" (§3): every block's degree is below
`message_modulus`. -/
def carriesEmpty (p : Params) (l : List Block) : Bool :=
  l.all fun b => decide (b.degree < p.msg)

/-- Raw base-`message_modulus` value carried by a list of blocks (including
pending carries), little-endian. -/
def radixValueRaw (p : Params) (l : List Block) : Nat :=
  l.foldr (fun b acc => b.val + p.msg * acc) 0

/-- Modelled from the spec: `full_propagate_parallelized`, the external
carry-propagation refresh: it renormalizes the blocks to the canonical
digits (base `message_modulus`, little-endian) of the represented integer
modulo `message_modulus ^ n`, each block coming out of message extraction
with degree `message_modulus - 1`. -/
def fullPropagate (p : Params) (l : List Block) : List Block :=
  (List.range l.length).map fun i =>
    ⟨radixValueRaw p l % p.msg ^ l.length / p.msg ^ i % p.msg, p.msg - 1⟩

/- ----------------------------------------------------------------- -/
/- CRT scalar addition: integer/server_key/crt/scalar_add_crt.rs     -/
/- ----------------------------------------------------------------- -/

/-- A CRT ciphertext: blocks paired 1:1 with the basis moduli. -/
structure CrtCiphertext where
  blocks : List Block
  moduli : List Nat
  deriving DecidableEq

/-- Embedding of `unchecked_crt_scalar_add_assign`: for each paired
`(block_i, mod_i)` the code computes `scalar % mod_i` (a u64) and passes it
to the shortint scalar add **as a u8**, hence the extra reduction modulo
`2^8`.  Blocks without a paired modulus are left untouched (Rust `zip`). -/
def uncheckedCrtScalarAddAssign (p : Params) (ct : CrtCiphertext) (s : Nat) :
    CrtCiphertext :=
  ⟨(List.zipWith (fun b m => uncheckedScalarAddBlock p b (s % m % 256))
      ct.blocks ct.moduli) ++ ct.blocks.drop ct.moduli.length,
   ct.moduli⟩

/-- Embedding of `is_crt_scalar_add_possible`: every paired channel must pass
the shortint degree check for its own reduced operand (again truncated to u8
by the cast at the call site). -/
def isCrtScalarAddPossible (p : Params) (ct : CrtCiphertext) (s : Nat) :
    CrtCheck :=
  if (ct.blocks.zip ct.moduli).all
      (fun bm => decide (bm.1.degree + s % bm.2 % 256 < p.q)) then
    .ok
  else
    .error .capacityExceeded

/-- Embedding of `checked_crt_scalar_add_assign`: the capacity predicate runs
first (`?` operator); on failure the error is returned with the ciphertext
untouched, on success the unchecked addition is performed.  The pair returns
the call's `Result` together with the state of the `&mut` ciphertext. -/
def checkedCrtScalarAddAssign (p : Params) (ct : CrtCiphertext) (s : Nat) :
    CrtCheck × CrtCiphertext :=
  match isCrtScalarAddPossible p ct s with
  | .ok => (.ok, uncheckedCrtScalarAddAssign p ct s)
  | .error e => (.error e, ct)

/-- Embedding of `checked_crt_scalar_add` (by-value variant). -/
def checkedCrtScalarAdd (p : Params) (ct : CrtCiphertext) (s : Nat) :
    Option CrtCiphertext :=
  match isCrtScalarAddPossible p ct s with
  | .ok => some (uncheckedCrtScalarAddAssign p ct s)
  | .error _ => none

/-- Modelled from the spec: `full_extract_message_assign`, the refresh used
by the smart tier.  Per the data model each CRT block's message alphabet is
its paired basis modulus, so the refresh reduces the block to its residue and
restores the minimal degree `mod_i - 1` of a fresh block. -/
def fullExtractMessageAssign (_p : Params) (ct : CrtCiphertext) :
    CrtCiphertext :=
  ⟨(List.zipWith (fun b m => (⟨b.val % m, m - 1⟩ : Block))
      ct.blocks ct.moduli) ++ ct.blocks.drop ct.moduli.length,
   ct.moduli⟩

/-- Embedding of `smart_crt_scalar_add_assign`: refresh the operand when the
capacity predicate fails, then `unwrap` the predicate (`none` models the
panic when it still fails) and perform the unchecked addition.  The second
component counts the refreshes performed. -/
def smartCrtScalarAddAssign (p : Params) (ct : CrtCiphertext) (s : Nat) :
    Option (CrtCiphertext × Nat) :=
  let step : CrtCiphertext × Nat :=
    match isCrtScalarAddPossible p ct s with
    | .ok => (ct, 0)
    | .error _ => (fullExtractMessageAssign p ct, 1)
  match isCrtScalarAddPossible p step.1 s with
  | .ok => some (uncheckedCrtScalarAddAssign p step.1 s, step.2)
  | .error _ => none

/- ----------------------------------------------------------------- -/
/- Conditional selection: integer/server_key/radix_parallel/cmux.rs  -/
/- ----------------------------------------------------------------- -/

/-- Embedding of `zero_out_if`: when the condition block provably encrypts 0
(`degree == 0`) the predicate is resolved in the clear with no bootstrap;
otherwise the bivariate table `g(block, cond) = 0 if pred(cond) else block`
is applied to every block whose degree is nonzero.  The second component
counts the bootstrap (table application) calls made. -/
def zeroOutIf (p : Params) (blocks : List Block) (cond : Block)
    (pred : Nat → Bool) : List Block × Nat :=
  if cond.degree = 0 then
    if pred 0 then (blocks.map fun _ => trivialZeroBlock, 0)
    else (blocks, 0)
  else
    (blocks.map fun b =>
       if b.degree = 0 then b
       else applyBivLut p (fun bl c => if pred c then 0 else bl) b cond,
     (blocks.filter fun b => decide (b.degree ≠ 0)).length)

/-- The per-block combine step of the cleaning branch of
`unchecked_programmable_if_then_else_parallelized`: block-wise addition
followed by `message_extract_assign` (the table `x % message_modulus`). -/
def combineClean (p : Params) (l r : Block) : Block :=
  applyLut p (fun x => x % p.msg) (blockAdd p l r)

/-- Embedding of `unchecked_programmable_if_then_else_parallelized`: zero out
the true branch under the inverted predicate and the false branch under the
predicate, then add block-wise, cleaning each block when requested. -/
def uncheckedProgrammableIfThenElse (p : Params) (condBlock : Block)
    (trueCt falseCt : List Block) (pred : Nat → Bool) (doCleanMessage : Bool) :
    List Block :=
  let tz := (zeroOutIf p trueCt condBlock fun x => !pred x).1
  let fz := (zeroOutIf p falseCt condBlock pred).1
  if doCleanMessage then List.zipWith (combineClean p) tz fz
  else List.zipWith (blockAdd p) tz fz

/-- Embedding of `unchecked_if_then_else_parallelized`: the programmable
variant with predicate `x == 1` and message cleaning enabled. -/
def uncheckedIfThenElse (p : Params) (cond : Block)
    (trueCt falseCt : List Block) : List Block :=
  uncheckedProgrammableIfThenElse p cond trueCt falseCt (fun x => x == 1) true

/-- The carry-normalization prologue shared by the non-assigning entry
points: operate on a propagated private copy when carries are pending. -/
def normalizeCarries (p : Params) (ct : List Block) : List Block :=
  if carriesEmpty p ct then ct else fullPropagate p ct

/-- Embedding of the ciphertext/ciphertext `if_then_else_parallelized`
(the `ServerKeyDefaultCMux<&T, &T>` impl): normalize both operands, then run
the unchecked selection. -/
def ifThenElseCtCt (p : Params) (cond : Block) (trueCt falseCt : List Block) :
    List Block :=
  uncheckedIfThenElse p cond (normalizeCarries p trueCt)
    (normalizeCarries p falseCt)

/-- The zeroing table of the boolean fast path: the low bit is the payload
value, the next bit the condition; the payload is kept only when the
condition bit is set. -/
def booleanZeroLut : Nat → Nat := fun x =>
  if (x >>> 1) &&& 1 = 1 then x &&& 1 else 0

/-- Embedding of the boolean/boolean `if_then_else_parallelized`
(the `ServerKeyDefaultCMux<&BooleanBlock, &BooleanBlock>` impl), including
its entry assertion that at least 2 bits of plaintext are available
(`none` models the panic). -/
def booleanIfThenElse (p : Params) (cond trueCt falseCt : Block) :
    Option Block :=
  if 2 ≤ Nat.log2 p.q then
    let negatedCond := booleanBitnot p cond
    let lhs := applyLut p booleanZeroLut
      (blockAdd p (scalarMulBlock p cond 2) trueCt)
    let rhs := applyLut p booleanZeroLut
      (blockAdd p (scalarMulBlock p negatedCond 2) falseCt)
    some (applyLut p (fun x => x % 2) (blockAdd p lhs rhs))
  else
    none

/-- Number of bits of one radix digit: `message_modulus().ilog2()`. -/
def digitBits (p : Params) : Nat := Nat.log2 p.msg

/-- Digit `i` of the little-endian base-`2^digitBits` decomposition of a
clear scalar (`BlockDecomposer::with_block_count(..).iter_as::<u64>()`). -/
def scalarDigit (p : Params) (v i : Nat) : Nat :=
  v / 2 ^ (digitBits p * i) % 2 ^ digitBits p

/-- The lookup table built for block `i` of
`unchecked_scalar_if_then_else_parallelized`: keyed on
`2 * block + condition`, it returns the ciphertext digit when the condition
bit is 1 and the scalar digit otherwise. -/
def scalarIfteLut (p : Params) (falseValue i : Nat) : Nat → Nat := fun bc =>
  if bc % 2 = 1 then bc / 2 % p.msg else scalarDigit p falseValue i

/-- Embedding of `unchecked_scalar_if_then_else_parallelized` (ciphertext
true branch, clear false branch).  `none` models the entry assertion that
every block of the true ciphertext satisfies
`2 * degree < message_modulus * carry_modulus`. -/
def uncheckedScalarIfThenElse (p : Params) (cond : Block)
    (trueCt : List Block) (falseValue : Nat) : Option (List Block) :=
  if trueCt.all (fun b => decide (2 * b.degree < p.q)) then
    let luts := (List.range trueCt.length).map (scalarIfteLut p falseValue)
    some ((trueCt.zip luts).map fun bl =>
      applyLut p bl.2 (blockAdd p (scalarMulBlock p bl.1 2) cond))
  else
    none

/-- Embedding of the ciphertext/scalar `if_then_else_parallelized`
(`ServerKeyDefaultCMux<&RadixCiphertext, Scalar>`; the signed impl is
textually identical): normalize the true operand, then run the unchecked
scalar selection. -/
def ifThenElseCtScalar (p : Params) (cond : Block) (trueCt : List Block)
    (falseValue : Nat) : Option (List Block) :=
  uncheckedScalarIfThenElse p cond (normalizeCarries p trueCt) falseValue

/-- Embedding of the scalar/ciphertext `if_then_else_parallelized`
(`ServerKeyDefaultCMux<Scalar, &RadixCiphertext>`; the signed impl is
textually identical): invert the selector and swap the operands. -/
def ifThenElseScalarCt (p : Params) (cond : Block) (trueValue : Nat)
    (falseCt : List Block) : Option (List Block) :=
  ifThenElseCtScalar p (booleanBitnot p cond) falseCt trueValue

/-- Chunks of at most `k` elements, in order (Rust `slice::chunks`); the
fuel argument makes the recursion structural. -/
def listChunksAux (fuel k : Nat) : List α → List (List α)
  | [] => []
  | l@(_ :: _) =>
    match fuel with
    | 0 => []
    | fuel + 1 => l.take k :: listChunksAux fuel k (l.drop k)

/-- Chunks of at most `k` elements of a list, in order. -/
def listChunks (k : Nat) (l : List α) : List (List α) :=
  listChunksAux l.length k l

/-- Modelled from the spec: the batched "many-output" table evaluator; one
evaluation call applies each packed function to the block and returns the
outputs in input order, each with its own table's output range as degree. -/
def applyManyLut (p : Params) (fs : List (Nat → Nat)) (c : Block) :
    List Block :=
  fs.map fun f => applyLut p f c

/-- The per-block selector functions of `scalar_if_then_else_parallelized`:
function `i` maps the boolean selector to the appropriate digit of the two
clear scalars. -/
def selectorFns (p : Params) (trueValue falseValue n : Nat) :
    List (Nat → Nat) :=
  (List.range n).map fun i => fun condition =>
    if condition = 1 then scalarDigit p trueValue i
    else scalarDigit p falseValue i

/-- `scalar_if_then_else_parallelized` with an explicit chunk size: split the
selector functions into chunks, one many-output evaluation per chunk, and
concatenate the outputs in input order. -/
def scalarIfThenElseChunked (p : Params) (cond : Block)
    (trueValue falseValue n k : Nat) : List Block :=
  (listChunks k (selectorFns p trueValue falseValue n)).flatMap fun chunk =>
    applyManyLut p chunk cond

/-- Embedding of `scalar_if_then_else_parallelized` (scalar/scalar
selection): the chunk size is
`max_num_many_luts = (message_modulus * carry_modulus) / 2`. -/
def scalarIfThenElse (p : Params) (cond : Block)
    (trueValue falseValue n : Nat) : List Block :=
  scalarIfThenElseChunked p cond trueValue falseValue n (p.q / 2)

/- ----------------------------------------------------------------- -/
/- Helper lemmas                                                     -/
/- ----------------------------------------------------------------- -/

theorem get?_zipWith {α β γ : Type} (f : α → β → γ) (l₁ : List α)
    (l₂ : List β) (i : Nat) :
    (List.zipWith f l₁ l₂).get? i =
      (l₁.get? i).bind fun a => (l₂.get? i).map (f a) := by
  induction l₁ generalizing l₂ i with
  | nil => simp
  | cons a t ih =>
    cases l₂ with
    | nil => simp
    | cons b t₂ =>
      cases i with
      | zero => simp
      | succ j => simpa using ih t₂ j

theorem get?_some_lt {α : Type} {l : List α} {i : Nat} {a : α}
    (h : l.get? i = some a) : i < l.length := by
  by_contra hn
  rw [List.get?_eq_none.mpr (by omega)] at h
  exact Option.noConfusion h

@[simp]
theorem applyLut_val (p : Params) (f : Nat → Nat) (b : Block) :
    (applyLut p f b).val = f b.val % p.q := rfl

@[simp]
theorem blockAdd_val (p : Params) (b c : Block) :
    (blockAdd p b c).val = (b.val + c.val) % p.q := rfl

@[simp]
theorem scalarMulBlock_val (p : Params) (b : Block) (k : Nat) :
    (scalarMulBlock p b k).val = b.val * k % p.q := rfl

@[simp]
theorem applyBivLut_val (p : Params) (g : Nat → Nat → Nat) (b c : Block) :
    (applyBivLut p g b c).val = g b.val c.val % p.q := rfl

theorem booleanBitnot_val_small (p : Params) (b : Block) (hb : b.val ≤ 1)
    (hq : 2 ≤ p.q) : (booleanBitnot p b).val = 1 - b.val := by
  have h1 : p.q + 1 - b.val = p.q + (1 - b.val) := by omega
  simp only [booleanBitnot, h1, Nat.add_mod_left]
  exact Nat.mod_eq_of_lt (by omega)

theorem lutMax_zero (p : Params) : lutMax p (fun _ => 0) = 0 := by
  have : ∀ l : List Nat, (l.map fun _ => (0 : Nat) % p.q).foldr max 0 = 0 := by
    intro l
    induction l with
    | nil => rfl
    | cons a t ih => rw [List.map_cons, List.foldr_cons, ih]; simp
  exact this (List.range p.q)

/- ----------------------------------------------------------------- -/
/- Claim theorems                                                    -/
/- ----------------------------------------------------------------- -/

/-- C2, counterexample: `unchecked_crt_scalar_add_assign` does not add
`scalar mod m_i` to block `i` for every basis: for modulus 257 and scalar
256 the `as u8` cast at the shortint call site truncates the channel operand
`256` to `0`, so the block is left unchanged instead of being advanced by
`scalar mod m_i = 256`. -/
theorem crt_scalar_add_truncation_cex :
    (uncheckedCrtScalarAddAssign ⟨512, 2⟩ ⟨[⟨0, 0⟩], [257]⟩ 256).blocks.get? 0
        ≠ some (uncheckedScalarAddBlock ⟨512, 2⟩ ⟨0, 0⟩ (256 % 257)) := by
  decide

/-- C2 (amended): `unchecked_crt_scalar_add_assign` adds
`(scalar mod m_i) mod 2^8` to block `i` (the operand passes through a u8),
each block depending only on its own channel; whenever `m_i ≤ 2^8` (so the
cast is lossless) and the channel does not overflow its budget, the residue
of block `i` becomes `((v + scalar) mod (m_1 * ... * m_k)) mod m_i` for a
ciphertext whose block `i` carries the residue of `v`. -/
theorem crt_scalar_add_per_channel (p : Params) (ct : CrtCiphertext)
    (s : Nat) :
    (uncheckedCrtScalarAddAssign p ct s).moduli = ct.moduli ∧
    (∀ i b m, ct.blocks.get? i = some b → ct.moduli.get? i = some m →
      (uncheckedCrtScalarAddAssign p ct s).blocks.get? i =
        some (uncheckedScalarAddBlock p b (s % m % 256))) ∧
    (∀ i b m v, ct.blocks.get? i = some b → ct.moduli.get? i = some m →
      m ≤ 256 → 0 < m → b.val % m = v % m → b.val + s % m < p.q →
      ∃ b', (uncheckedCrtScalarAddAssign p ct s).blocks.get? i = some b' ∧
        b'.val % m = (v + s) % ct.moduli.prod % m) := by
  refine ⟨rfl, ?_, ?_⟩
  · intro i b m hb hm
    have hib := get?_some_lt hb
    have him := get?_some_lt hm
    have hlen : i < (List.zipWith
        (fun b m => uncheckedScalarAddBlock p b (s % m % 256))
        ct.blocks ct.moduli).length := by
      rw [List.length_zipWith]; omega
    unfold uncheckedCrtScalarAddAssign
    rw [List.get?_append hlen, get?_zipWith, hb, hm]
    rfl
  · intro i b m v hb hm hm256 hmpos hres hnw
    refine ⟨uncheckedScalarAddBlock p b (s % m % 256), ?_, ?_⟩
    · have hib := get?_some_lt hb
      have him := get?_some_lt hm
      have hlen : i < (List.zipWith
          (fun b m => uncheckedScalarAddBlock p b (s % m % 256))
          ct.blocks ct.moduli).length := by
        rw [List.length_zipWith]; omega
      unfold uncheckedCrtScalarAddAssign
      rw [List.get?_append hlen, get?_zipWith, hb, hm]
      rfl
    · have hsm : s % m % 256 = s % m :=
        Nat.mod_eq_of_lt (lt_of_lt_of_le (Nat.mod_lt s hmpos) hm256)
      have hdvd : m ∣ ct.moduli.prod :=
        List.dvd_prod (List.get?_mem hm)
      have hval : (uncheckedScalarAddBlock p b (s % m % 256)).val =
          b.val + s % m := by
        simp only [uncheckedScalarAddBlock, hsm]
        exact Nat.mod_eq_of_lt hnw
      rw [hval, Nat.mod_mod_of_dvd _ hdvd, Nat.add_mod, hres,
        Nat.mod_mod_of_dvd s (dvd_refl m), ← Nat.add_mod]

/-- C2 witness: basis `[2, 3, 5]` (CRT modulus 30), ciphertext carrying 14,
scalar 14: the middle channel's residue becomes `(14 + 14) mod 30 mod 3`. -/
theorem crt_scalar_add_per_channel_witness :
    ∃ b', (uncheckedCrtScalarAddAssign ⟨8, 8⟩
        ⟨[⟨0, 0⟩, ⟨2, 2⟩, ⟨4, 4⟩], [2, 3, 5]⟩ 14).blocks.get? 1 = some b' ∧
      b'.val % 3 = (14 + 14) % ([2, 3, 5] : List Nat).prod % 3 := by
  exact (crt_scalar_add_per_channel ⟨8, 8⟩
    ⟨[⟨0, 0⟩, ⟨2, 2⟩, ⟨4, 4⟩], [2, 3, 5]⟩ 14).2.2 1 ⟨2, 2⟩ 3 14
    (by decide) (by decide) (by decide) (by decide) (by decide) (by decide)

/-- C3, counterexample: the claimed equivalence "`Ok` iff every channel has
`degree_i + (scalar mod m_i) < message_modulus * carry_modulus`" fails: for
modulus 257 and scalar 256 the u8 cast truncates the checked operand to 0,
so the check passes although `degree + (scalar mod m) = 3 + 256` exceeds the
budget 4. -/
theorem is_crt_scalar_add_possible_cex :
    isCrtScalarAddPossible ⟨2, 2⟩ ⟨[⟨0, 3⟩], [257]⟩ 256 = .ok ∧
      ¬ ((3 : Nat) + 256 % 257 < (⟨2, 2⟩ : Params).q) := by
  constructor
  · decide
  · decide

/-- C3 (amended): `is_crt_scalar_add_possible` returns `Ok` iff every paired
channel satisfies `degree_i + ((scalar mod m_i) mod 2^8) < message_modulus *
carry_modulus` (the operand is truncated to u8 at the call site); when it
does not return `Ok` it returns the capacity `CheckError` and the checked
call leaves the operand untouched; a block at degree `q - 1` with a channel
operand of 0 is exactly at the boundary and succeeds, while one unit past
the boundary fails. -/
theorem is_crt_scalar_add_possible_iff (p : Params) (ct : CrtCiphertext)
    (s : Nat) :
    (isCrtScalarAddPossible p ct s = .ok ↔
      ∀ i b m, ct.blocks.get? i = some b → ct.moduli.get? i = some m →
        b.degree + s % m % 256 < p.q) ∧
    (isCrtScalarAddPossible p ct s ≠ .ok →
      isCrtScalarAddPossible p ct s = .error .capacityExceeded ∧
      checkedCrtScalarAddAssign p ct s = (.error .capacityExceeded, ct)) ∧
    (isCrtScalarAddPossible ⟨2, 2⟩ ⟨[⟨1, 3⟩], [5]⟩ 5 = .ok ∧
     isCrtScalarAddPossible ⟨2, 2⟩ ⟨[⟨1, 3⟩], [5]⟩ 6 =
       .error .capacityExceeded ∧
     checkedCrtScalarAddAssign ⟨2, 2⟩ ⟨[⟨1, 3⟩], [5]⟩ 6 =
       (.error .capacityExceeded, ⟨[⟨1, 3⟩], [5]⟩)) := by
  refine ⟨?_, ?_, by decide, by decide, by decide⟩
  · unfold isCrtScalarAddPossible
    constructor
    · intro h i b m hb hm
      by_cases hall : (ct.blocks.zip ct.moduli).all
          (fun bm => decide (bm.1.degree + s % bm.2 % 256 < p.q))
      · have := List.all_eq_true.mp hall (b, m) ?_
        · exact of_decide_eq_true this
        · rw [List.mem_iff_get?]
          refine ⟨i, ?_⟩
          have : ct.blocks.zip ct.moduli =
              List.zipWith Prod.mk ct.blocks ct.moduli := rfl
          rw [this, get?_zipWith, hb, hm]
          rfl
      · rw [if_neg hall] at h
        exact CrtCheck.noConfusion h
    · intro h
      rw [if_pos]
      rw [List.all_eq_true]
      intro bm hbm
      rw [List.mem_iff_get?] at hbm
      obtain ⟨i, hi⟩ := hbm
      have hz : ct.blocks.zip ct.moduli =
          List.zipWith Prod.mk ct.blocks ct.moduli := rfl
      rw [hz, get?_zipWith] at hi
      cases hb : ct.blocks.get? i with
      | none => rw [hb] at hi; exact Option.noConfusion hi
      | some b =>
        cases hm : ct.moduli.get? i with
        | none => rw [hb, hm] at hi; exact Option.noConfusion hi
        | some m =>
          rw [hb, hm] at hi
          cases Option.some.inj hi
          exact decide_eq_true (h i b m hb hm)
  · intro h
    unfold isCrtScalarAddPossible at h ⊢
    unfold checkedCrtScalarAddAssign isCrtScalarAddPossible
    by_cases hall : (ct.blocks.zip ct.moduli).all
        (fun bm => decide (bm.1.degree + s % bm.2 % 256 < p.q))
    · rw [if_pos hall] at h; exact absurd rfl h
    · rw [if_neg hall]; exact ⟨rfl, rfl⟩

/-- C3 witness: a failing input where the predicate rejects and the checked
assign call returns the error with the ciphertext byte-identical. -/
theorem is_crt_scalar_add_possible_iff_witness :
    isCrtScalarAddPossible ⟨2, 2⟩ ⟨[⟨2, 2⟩], [3]⟩ 2 =
      .error .capacityExceeded ∧
    checkedCrtScalarAddAssign ⟨2, 2⟩ ⟨[⟨2, 2⟩], [3]⟩ 2 =
      (.error .capacityExceeded, ⟨[⟨2, 2⟩], [3]⟩) :=
  (is_crt_scalar_add_possible_iff ⟨2, 2⟩ ⟨[⟨2, 2⟩], [3]⟩ 2).2.1 (by decide)

/-- C4: `checked_crt_scalar_add_assign` runs the capacity predicate first;
on failure it returns the typed error and the ciphertext is completely
unmodified, on success the resulting ciphertext is exactly the one produced
by `unchecked_crt_scalar_add_assign`; the by-value `checked_crt_scalar_add`
behaves the same way. -/
theorem checked_crt_scalar_add_atomicity (p : Params) (ct : CrtCiphertext)
    (s : Nat) :
    (∀ e, isCrtScalarAddPossible p ct s = .error e →
      checkedCrtScalarAddAssign p ct s = (.error e, ct) ∧
      checkedCrtScalarAdd p ct s = none) ∧
    (isCrtScalarAddPossible p ct s = .ok →
      checkedCrtScalarAddAssign p ct s =
        (.ok, uncheckedCrtScalarAddAssign p ct s) ∧
      checkedCrtScalarAdd p ct s =
        some (uncheckedCrtScalarAddAssign p ct s)) := by
  constructor
  · intro e he
    unfold checkedCrtScalarAddAssign checkedCrtScalarAdd
    rw [he]
    exact ⟨rfl, rfl⟩
  · intro h
    unfold checkedCrtScalarAddAssign checkedCrtScalarAdd
    rw [h]
    exact ⟨rfl, rfl⟩

/-- C4 witness: a concrete failure leaving the operand unmodified and a
concrete success agreeing with the unchecked addition. -/
theorem checked_crt_scalar_add_atomicity_witness :
    (checkedCrtScalarAddAssign ⟨2, 2⟩ ⟨[⟨1, 3⟩], [3]⟩ 1 =
      (.error .capacityExceeded, ⟨[⟨1, 3⟩], [3]⟩)) ∧
    (checkedCrtScalarAddAssign ⟨2, 2⟩ ⟨[⟨0, 0⟩], [3]⟩ 1 =
      (.ok, uncheckedCrtScalarAddAssign ⟨2, 2⟩ ⟨[⟨0, 0⟩], [3]⟩ 1)) := by
  constructor
  · exact ((checked_crt_scalar_add_atomicity ⟨2, 2⟩ ⟨[⟨1, 3⟩], [3]⟩ 1).1
      .capacityExceeded (by decide)).1
  · exact ((checked_crt_scalar_add_atomicity ⟨2, 2⟩ ⟨[⟨0, 0⟩], [3]⟩ 1).2
      (by decide)).1

theorem is_possible_after_extract (p : Params) (ct : CrtCiphertext) (s : Nat)
    (hm : ∀ m ∈ ct.moduli, 0 < m ∧ 2 * m ≤ p.q) :
    isCrtScalarAddPossible p (fullExtractMessageAssign p ct) s = .ok := by
  unfold isCrtScalarAddPossible
  rw [if_pos]
  rw [List.all_eq_true]
  intro bm hbm
  rw [List.mem_iff_get?] at hbm
  obtain ⟨i, hi⟩ := hbm
  have hz : (fullExtractMessageAssign p ct).blocks.zip
      (fullExtractMessageAssign p ct).moduli =
      List.zipWith Prod.mk (fullExtractMessageAssign p ct).blocks
        ct.moduli := rfl
  rw [hz, get?_zipWith] at hi
  cases hb' : (fullExtractMessageAssign p ct).blocks.get? i with
  | none => rw [hb'] at hi; exact Option.noConfusion hi
  | some b' =>
    cases hm' : ct.moduli.get? i with
    | none => rw [hb', hm'] at hi; exact Option.noConfusion hi
    | some m =>
      rw [hb', hm'] at hi
      cases Option.some.inj hi
      have him : i < ct.moduli.length := get?_some_lt hm'
      have hib : i < ct.blocks.length := by
        by_contra hn
        have hlen : (fullExtractMessageAssign p ct).blocks.length =
            ct.blocks.length := by
          unfold fullExtractMessageAssign
          rw [List.length_append, List.length_zipWith, List.length_drop]
          omega
        have := get?_some_lt hb'
        omega
      have hlt : i < (List.zipWith
          (fun b m => (⟨b.val % m, m - 1⟩ : Block))
          ct.blocks ct.moduli).length := by
        rw [List.length_zipWith]; omega
      have hchar : (fullExtractMessageAssign p ct).blocks.get? i =
          (ct.blocks.get? i).bind fun b => (ct.moduli.get? i).map
            fun m => (⟨b.val % m, m - 1⟩ : Block) := by
        unfold fullExtractMessageAssign
        rw [List.get?_append hlt, get?_zipWith]
      rw [hchar, hm'] at hb'
      cases hbb : ct.blocks.get? i with
      | none => rw [hbb] at hb'; exact Option.noConfusion hb'
      | some b =>
        rw [hbb] at hb'
        cases Option.some.inj hb'
        apply decide_eq_true
        have hmm := hm m (List.get?_mem hm')
        have ha : s % m % 256 ≤ s % m := Nat.mod_le _ _
        have hc : s % m < m := Nat.mod_lt _ hmm.1
        have h2 := hmm.2
        simp only
        omega

/-- C5, counterexample: a CRT ciphertext satisfying the block invariant
`degree < message_modulus * carry_modulus` on which
`smart_crt_scalar_add_assign` still fails from capacity: with budget 3 and
basis modulus 3 the refreshed block has degree 2 and channel operand 2, so
the capacity predicate fails again after the refresh and the final `unwrap`
panics (modelled by `none`). -/
theorem smart_crt_scalar_add_cex :
    (2 : Nat) < (⟨3, 1⟩ : Params).q ∧
    smartCrtScalarAddAssign ⟨3, 1⟩ ⟨[⟨2, 2⟩], [3]⟩ 2 = none := by
  decide

/-- C5 (amended): whenever every basis modulus has the headroom
`2 * m_i ≤ message_modulus * carry_modulus` (as in the spec's data model,
where a CRT block's message alphabet is its basis modulus and the carry
modulus is at least 2), `smart_crt_scalar_add_assign` never fails from
capacity: if the capacity predicate holds no refresh occurs, otherwise
exactly one refresh (`full_extract_message_assign`) occurs, after which the
predicate is guaranteed to succeed, and the unchecked addition is performed
on the refreshed operand. -/
theorem smart_crt_scalar_add_refresh (p : Params) (ct : CrtCiphertext)
    (s : Nat) (hm : ∀ m ∈ ct.moduli, 0 < m ∧ 2 * m ≤ p.q) :
    (isCrtScalarAddPossible p ct s = .ok →
      smartCrtScalarAddAssign p ct s =
        some (uncheckedCrtScalarAddAssign p ct s, 0)) ∧
    (isCrtScalarAddPossible p ct s ≠ .ok →
      smartCrtScalarAddAssign p ct s =
        some (uncheckedCrtScalarAddAssign p
          (fullExtractMessageAssign p ct) s, 1)) := by
  constructor
  · intro h
    simp [smartCrtScalarAddAssign, h]
  · intro h
    obtain ⟨e, he⟩ : ∃ e, isCrtScalarAddPossible p ct s = .error e := by
      cases hc : isCrtScalarAddPossible p ct s with
      | ok => exact absurd hc h
      | error e => exact ⟨e, rfl⟩
    have hok := is_possible_after_extract p ct s hm
    simp [smartCrtScalarAddAssign, he, hok]

/-- C5 witness: budget 6, basis modulus 3: a saturated block is refreshed
exactly once and the addition then succeeds. -/
theorem smart_crt_scalar_add_refresh_witness :
    smartCrtScalarAddAssign ⟨3, 2⟩ ⟨[⟨2, 5⟩], [3]⟩ 2 =
      some (⟨[⟨4, 4⟩], [3]⟩, 1) := by
  have h := (smart_crt_scalar_add_refresh ⟨3, 2⟩ ⟨[⟨2, 5⟩], [3]⟩ 2
    (by decide)).2 (by decide)
  exact h.trans (by decide)

/-- C6: `zero_out_if` short-circuits when the condition block's degree is 0,
setting the ciphertext to a trivial all-zero one when `pred 0` holds and
leaving it untouched otherwise, with zero bootstrap calls; otherwise it
applies the bivariate table `g(block, cond) = 0 if pred(cond) else block` to
every block, skipping blocks of degree 0, and the skip cannot change the
decrypted outcome because a degree-0 block carries the value 0, which the
table would also map to 0. -/
theorem zero_out_if_short_circuit (p : Params) (t : List Block)
    (cond : Block) (pred : Nat → Bool) (_hc : cond.degree < p.msg) :
    (cond.degree = 0 → pred 0 = true →
      zeroOutIf p t cond pred = (t.map fun _ => trivialZeroBlock, 0)) ∧
    (cond.degree = 0 → pred 0 = false →
      zeroOutIf p t cond pred = (t, 0)) ∧
    (cond.degree ≠ 0 →
      zeroOutIf p t cond pred =
        (t.map fun b => if b.degree = 0 then b
           else applyBivLut p (fun bl c => if pred c then 0 else bl) b cond,
         (t.filter fun b => decide (b.degree ≠ 0)).length)) ∧
    (∀ b : Block, b.degree = 0 → b.val ≤ b.degree →
      (applyBivLut p (fun bl c => if pred c then 0 else bl) b cond).val =
        b.val) := by
  refine ⟨?_, ?_, ?_, ?_⟩
  · intro h0 hp; simp [zeroOutIf, h0, hp]
  · intro h0 hp; simp [zeroOutIf, h0, hp]
  · intro h0; simp [zeroOutIf, h0]
  · intro b hd hv
    have hb0 : b.val = 0 := by omega
    rw [applyBivLut_val, hb0]
    cases hpc : pred cond.val <;> simp [hpc]

/-- C6 witness: a statically-zero condition with a true predicate zeroes a
one-block ciphertext with no bootstrap call. -/
theorem zero_out_if_short_circuit_witness :
    zeroOutIf ⟨2, 2⟩ [⟨1, 1⟩] ⟨0, 0⟩ (fun _ => true) = ([⟨0, 0⟩], 0) := by
  have h := (zero_out_if_short_circuit ⟨2, 2⟩ [⟨1, 1⟩] ⟨0, 0⟩
    (fun _ => true) (by decide)).1 rfl rfl
  exact h.trans (by decide)

/-- C7, counterexample: with a constant-false predicate but a condition
block of nonzero degree, `zero_out_if` does call the bootstrap primitive
(once per nonzero-degree block) and the resulting ciphertext is not
bit-identical to the input (the applied table resets the block degree), even
though the outcome is statically decidable. -/
theorem zero_out_if_const_false_cex :
    (zeroOutIf ⟨4, 4⟩ [⟨1, 1⟩] ⟨1, 1⟩ fun _ => false).2 ≠ 0 ∧
    (zeroOutIf ⟨4, 4⟩ [⟨1, 1⟩] ⟨1, 1⟩ fun _ => false).1 ≠ [⟨1, 1⟩] := by
  decide

/-- C7 (amended): with a constant-false predicate, `zero_out_if` leaves the
ciphertext bit-identical with no bootstrap call exactly when the condition
block's degree is 0; when the degree is nonzero it makes one bivariate
bootstrap call per nonzero-degree block but leaves every decrypted block
value unchanged; with a constant-true predicate one application already
yields the trivial all-zero ciphertext and a second application leaves that
result unchanged (and makes no further bootstrap calls on it). -/
theorem zero_out_if_const_pred (p : Params) (t : List Block) (cond : Block)
    (hb : ∀ b ∈ t, b.val ≤ b.degree ∧ b.degree < p.q) :
    (cond.degree = 0 → zeroOutIf p t cond (fun _ => false) = (t, 0)) ∧
    (cond.degree ≠ 0 →
      (zeroOutIf p t cond fun _ => false).2 =
        (t.filter fun b => decide (b.degree ≠ 0)).length ∧
      (zeroOutIf p t cond fun _ => false).1.map Block.val =
        t.map Block.val) ∧
    ((zeroOutIf p t cond fun _ => true).1 =
      t.map fun _ => trivialZeroBlock) ∧
    ((zeroOutIf p (zeroOutIf p t cond fun _ => true).1 cond
        fun _ => true).1 = (zeroOutIf p t cond fun _ => true).1) := by
  have h3 : (zeroOutIf p t cond fun _ => true).1 =
      t.map fun _ => trivialZeroBlock := by
    by_cases h0 : cond.degree = 0
    · simp [zeroOutIf, h0]
    · simp only [zeroOutIf, h0, if_neg, if_false]
      apply List.map_congr_left
      intro b hbm
      by_cases hd : b.degree = 0
      · rw [if_pos hd]
        have hv := (hb b hbm).1
        have : b.val = 0 := by omega
        cases b
        simp_all [trivialZeroBlock]
      · rw [if_neg hd]
        have hmax : bivLutMax p (fun _ _ => (0 : Nat)) = 0 := lutMax_zero p
        simp [applyBivLut, trivialZeroBlock, hmax]
  refine ⟨?_, ?_, h3, ?_⟩
  · intro h0; simp [zeroOutIf, h0]
  · intro h0
    constructor
    · simp [zeroOutIf, h0]
    · simp only [zeroOutIf, h0, if_neg, if_false]
      rw [List.map_map]
      apply List.map_congr_left
      intro b hbm
      by_cases hd : b.degree = 0
      · simp [hd]
      · have hv := hb b hbm
        simp only [Function.comp, if_neg hd, applyBivLut_val, if_false]
        rw [if_neg (by decide : ¬(false = true))]
        exact Nat.mod_eq_of_lt (by omega)
  · by_cases h0 : cond.degree = 0
    · rw [h3]
      simp [zeroOutIf, h0, List.map_map]
    · rw [h3]
      simp only [zeroOutIf, h0, if_neg, if_false]
      rw [List.map_map]
      apply List.map_congr_left
      intro b hbm
      rfl

/-- C7 witness: a statically-zero condition with the constant-false
predicate leaves the ciphertext bit-identical with zero bootstrap calls. -/
theorem zero_out_if_const_pred_witness :
    zeroOutIf ⟨2, 2⟩ [⟨1, 1⟩] ⟨0, 0⟩ (fun _ => false) = ([⟨1, 1⟩], 0) :=
  (zero_out_if_const_pred ⟨2, 2⟩ [⟨1, 1⟩] ⟨0, 0⟩ (by decide)).1 rfl

theorem listChunksAux_flatMap_map {α β : Type} (h : α → β) (k : Nat)
    (hk : 0 < k) :
    ∀ (fuel : Nat) (l : List α), l.length ≤ fuel →
      ((listChunksAux fuel k l).flatMap fun c => c.map h) = l.map h := by
  intro fuel
  induction fuel with
  | zero =>
    intro l hl
    have : l = [] := List.eq_nil_of_length_eq_zero (by omega)
    subst this
    rfl
  | succ n ih =>
    intro l hl
    cases l with
    | nil => rfl
    | cons a t =>
      rw [show listChunksAux (n + 1) k (a :: t) =
        (a :: t).take k :: listChunksAux n k ((a :: t).drop k) from rfl]
      rw [List.flatMap_cons,
        ih ((a :: t).drop k) (by rw [List.length_drop]; simp at hl ⊢; omega),
        ← List.map_append, List.take_append_drop]

theorem listChunksAux_length_le {α : Type} (k : Nat) :
    ∀ (fuel : Nat) (l : List α) (c : List α),
      c ∈ listChunksAux fuel k l → c.length ≤ k := by
  intro fuel
  induction fuel with
  | zero =>
    intro l c hc
    cases l with
    | nil => exact absurd hc (List.not_mem_nil c)
    | cons a t => exact absurd hc (List.not_mem_nil c)
  | succ n ih =>
    intro l c hc
    cases l with
    | nil => exact absurd hc (List.not_mem_nil c)
    | cons a t =>
      rw [show listChunksAux (n + 1) k (a :: t) =
        (a :: t).take k :: listChunksAux n k ((a :: t).drop k) from rfl] at hc
      rcases List.mem_cons.mp hc with h1 | h2
      · subst h1
        rw [List.length_take]
        omega
      · exact ih _ c h2

/-- C9: in `scalar_if_then_else_parallelized` the per-block selector
functions are evaluated through the many-output table evaluator in chunks of
at most `max_num_many_luts = (message_modulus * carry_modulus) / 2`, one
evaluation per chunk; for any positive chunk size the concatenation of the
chunk outputs in input order equals evaluating every function individually
with one table per block, and every chunk has at most the requested size. -/
theorem scalar_ifte_batching (p : Params) (cond : Block) (tv fv n : Nat) :
    (∀ k, 0 < k →
      scalarIfThenElseChunked p cond tv fv n k =
        (selectorFns p tv fv n).map fun f => applyLut p f cond) ∧
    (∀ k (c : List (Nat → Nat)),
      c ∈ listChunks k (selectorFns p tv fv n) → c.length ≤ k) ∧
    scalarIfThenElse p cond tv fv n =
      scalarIfThenElseChunked p cond tv fv n (p.q / 2) := by
  refine ⟨?_, ?_, rfl⟩
  · intro k hk
    unfold scalarIfThenElseChunked applyManyLut listChunks
    exact listChunksAux_flatMap_map (fun f => applyLut p f cond) k hk _ _
      le_rfl
  · intro k c hc
    exact listChunksAux_length_le k _ _ c hc

/-- C9 witness: three selector functions batched in chunks of two equal the
one-table-per-block evaluation. -/
theorem scalar_ifte_batching_witness :
    scalarIfThenElseChunked ⟨2, 2⟩ ⟨1, 1⟩ 2 1 3 2 =
      (selectorFns ⟨2, 2⟩ 2 1 3).map fun f => applyLut ⟨2, 2⟩ f ⟨1, 1⟩ :=
  (scalar_ifte_batching ⟨2, 2⟩ ⟨1, 1⟩ 2 1 3).1 2 (by decide)

/-- C10: the ciphertext/scalar selection path asserts that every block of
the true ciphertext satisfies `2 * degree < message_modulus * carry_modulus`
and panics (modelled by `none`) otherwise; whenever the true ciphertext's
block carries are empty (every degree below `message_modulus`) and
`carry_modulus >= 2`, the assertion can never fire on the
`if_then_else_parallelized` path. -/
theorem scalar_ifte_degree_assert :
    (∀ (p : Params) (cond : Block) (t : List Block) (fv : Nat),
      ¬ (∀ b ∈ t, 2 * b.degree < p.q) →
      uncheckedScalarIfThenElse p cond t fv = none) ∧
    (∀ (p : Params) (cond : Block) (t : List Block) (fv : Nat),
      (∀ b ∈ t, b.degree < p.msg) → 2 ≤ p.carry →
      (ifThenElseCtScalar p cond t fv).isSome) := by
  constructor
  · intro p cond t fv h
    unfold uncheckedScalarIfThenElse
    rw [if_neg]
    intro hall
    exact h fun b hb => of_decide_eq_true (List.all_eq_true.mp hall b hb)
  · intro p cond t fv hce hcar
    unfold ifThenElseCtScalar
    have hne : normalizeCarries p t = t := by
      unfold normalizeCarries
      rw [if_pos]
      unfold carriesEmpty
      rw [List.all_eq_true]
      exact fun b hb => decide_eq_true (hce b hb)
    rw [hne]
    unfold uncheckedScalarIfThenElse
    rw [if_pos]
    · rfl
    · rw [List.all_eq_true]
      intro b hb
      apply decide_eq_true
      have h1 := hce b hb
      have h3 : p.msg * 2 ≤ p.msg * p.carry := Nat.mul_le_mul le_rfl hcar
      have h2 : 2 * b.degree < p.msg * 2 := by omega
      exact lt_of_lt_of_le h2 h3

/-- C10 witness: a block violating the degree bound makes the unchecked path
panic, while a carries-empty ciphertext passes the assertion. -/
theorem scalar_ifte_degree_assert_witness :
    uncheckedScalarIfThenElse ⟨2, 2⟩ ⟨0, 1⟩ [⟨0, 5⟩] 0 = none ∧
    (ifThenElseCtScalar ⟨2, 2⟩ ⟨0, 1⟩ [⟨1, 1⟩] 0).isSome := by
  constructor
  · exact scalar_ifte_degree_assert.1 ⟨2, 2⟩ ⟨0, 1⟩ [⟨0, 5⟩] 0 (by decide)
  · exact scalar_ifte_degree_assert.2 ⟨2, 2⟩ ⟨0, 1⟩ [⟨1, 1⟩] 0 (by decide)
      (by decide)

theorem normalizeCarries_id (p : Params) (l : List Block)
    (h : ∀ b ∈ l, b.degree < p.msg) : normalizeCarries p l = l := by
  unfold normalizeCarries carriesEmpty
  rw [if_pos (List.all_eq_true.mpr fun b hb => decide_eq_true (h b hb))]

theorem scalarIfte_result_get? (p : Params) (cond : Block) (t : List Block)
    (fv i : Nat) (b : Block) (hib : t.get? i = some b) :
    ((t.zip ((List.range t.length).map (scalarIfteLut p fv))).map fun bl =>
        applyLut p bl.2 (blockAdd p (scalarMulBlock p bl.1 2) cond)).get? i =
      some (applyLut p (scalarIfteLut p fv i)
        (blockAdd p (scalarMulBlock p b 2) cond)) := by
  have hilen : i < t.length := get?_some_lt hib
  rw [List.get?_map]
  rw [show t.zip ((List.range t.length).map (scalarIfteLut p fv)) =
    List.zipWith Prod.mk t ((List.range t.length).map (scalarIfteLut p fv))
    from rfl]
  rw [get?_zipWith, hib, List.get?_map, List.get?_range hilen]
  rfl

/-- C8: the scalar/ciphertext selection is implemented exactly by inverting
the selector with a boolean negation and swapping the operands into the
ciphertext/scalar path, and the composition is semantically correct: for a
boolean selector the result's block values are the scalar's digits when the
selector is 1 and the false ciphertext's values when it is 0. -/
theorem scalar_select_symmetry :
    (∀ (p : Params) (cond : Block) (tv : Nat) (f : List Block),
      ifThenElseScalarCt p cond tv f =
        ifThenElseCtScalar p (booleanBitnot p cond) f tv) ∧
    (∀ (p : Params) (cond : Block) (tv : Nat) (f : List Block),
      2 ≤ p.msg → 2 ≤ p.carry → p.msg = 2 ^ digitBits p → cond.val ≤ 1 →
      (∀ b ∈ f, b.val ≤ b.degree ∧ b.degree < p.msg) →
      ∃ r, ifThenElseScalarCt p cond tv f = some r ∧
        r.length = f.length ∧
        ∀ i b, f.get? i = some b →
          (r.get? i).map Block.val =
            some (if cond.val = 1 then scalarDigit p tv i else b.val)) := by
  constructor
  · intro p cond tv f; rfl
  · intro p cond tv f hmsg hcar hpow hcv hf
    have hq : p.msg * 2 ≤ p.q := by
      unfold Params.q; exact Nat.mul_le_mul le_rfl hcar
    have hmq : p.msg ≤ p.q := by omega
    have hq4 : 4 ≤ p.q := by
      have h22 : 2 * 2 ≤ p.msg * p.carry := Nat.mul_le_mul hmsg hcar
      have : p.q = p.msg * p.carry := rfl
      omega
    unfold ifThenElseScalarCt ifThenElseCtScalar
    have hnorm : normalizeCarries p f = f :=
      normalizeCarries_id p f fun b hb => (hf b hb).2
    rw [hnorm]
    unfold uncheckedScalarIfThenElse
    rw [if_pos ?hassert]
    case hassert =>
      rw [List.all_eq_true]
      intro b hb
      apply decide_eq_true
      have h1 := (hf b hb).2
      have h2 : 2 * b.degree < p.msg * 2 := by omega
      exact lt_of_lt_of_le h2 hq
    refine ⟨_, rfl, ?_, ?_⟩
    · rw [List.length_map, List.length_zip, List.length_map,
        List.length_range]
      simp
    · intro i b hib
      rw [scalarIfte_result_get? p (booleanBitnot p cond) f tv i b hib]
      have hbv := hf b (List.get?_mem hib)
      have hbnv : (booleanBitnot p cond).val = 1 - cond.val :=
        booleanBitnot_val_small p cond hcv (by omega)
      rw [Option.map_some']
      rw [applyLut_val, blockAdd_val, scalarMulBlock_val, hbnv]
      have hb2 : b.val * 2 % p.q = b.val * 2 := Nat.mod_eq_of_lt (by omega)
      rw [hb2]
      have hx : (b.val * 2 + (1 - cond.val)) % p.q =
          b.val * 2 + (1 - cond.val) := Nat.mod_eq_of_lt (by omega)
      rw [hx]
      unfold scalarIfteLut
      have hc01 : cond.val = 0 ∨ cond.val = 1 := by omega
      rcases hc01 with h0 | h1
      · rw [h0]
        have hm2 : (b.val * 2 + (1 - 0)) % 2 = 1 := by omega
        have hd2 : (b.val * 2 + (1 - 0)) / 2 = b.val := by omega
        rw [if_pos hm2, hd2,
          Nat.mod_eq_of_lt (show b.val < p.msg by omega),
          Nat.mod_eq_of_lt (show b.val < p.q by omega)]
        rfl
      · rw [h1]
        have hm2 : ¬ ((b.val * 2 + (1 - 1)) % 2 = 1) := by omega
        rw [if_neg hm2]
        have hdig : scalarDigit p tv i < p.msg := by
          rw [hpow]
          exact Nat.mod_lt _ (Nat.pos_pow_of_pos _ (by omega))
        rw [Nat.mod_eq_of_lt (show scalarDigit p tv i < p.q by omega)]
        rfl

/-- C8 witness: a one-block false ciphertext with selector 1 yields the
scalar's digit. -/
theorem scalar_select_symmetry_witness :
    ∃ r, ifThenElseScalarCt ⟨2, 2⟩ ⟨1, 1⟩ 1 [⟨0, 1⟩] = some r ∧
      r.length = 1 ∧
      (r.get? 0).map Block.val = some (scalarDigit ⟨2, 2⟩ 1 0) := by
  obtain ⟨r, h1, h2, h3⟩ := scalar_select_symmetry.2 ⟨2, 2⟩ ⟨1, 1⟩ 1
    [⟨0, 1⟩] (by decide) (by decide) (by simp [digitBits, Nat.log2])
    (by decide) (by decide)
  refine ⟨r, h1, h2, ?_⟩
  have := h3 0 ⟨0, 1⟩ rfl
  simpa using this

theorem zeroOutIf_length (p : Params) (l : List Block) (cond : Block)
    (pred : Nat → Bool) : (zeroOutIf p l cond pred).1.length = l.length := by
  unfold zeroOutIf
  by_cases h0 : cond.degree = 0
  · rw [if_pos h0]
    cases hp : pred 0 <;> simp [hp]
  · rw [if_neg h0]
    simp

theorem combineClean_val (p : Params) (l r : Block) :
    (combineClean p l r).val = (l.val + r.val) % p.q % p.msg % p.q := rfl

theorem booleanZeroLut_values :
    booleanZeroLut 0 = 0 ∧ booleanZeroLut 1 = 0 ∧ booleanZeroLut 2 = 0 ∧
    booleanZeroLut 3 = 1 := by
  decide

/-- Decryption-selection correctness of the conditional-select engine.
Boolean fast path: for every selector, true and false bit, the returned
boolean block carries `a` when the selector is 1 and `b` when it is 0 (all
8 combinations).  Generic radix path (`if_then_else_parallelized` over
multi-block operands with empty carries): every result digit equals the
corresponding digit of the true operand when the selector is 1 and of the
false operand when it is 0.  The freshness property of the result (its bit
representation differing from the inputs') lives below this embedding, in
the randomness of the ciphertext payloads, and is not stated here. -/
theorem if_then_else_selects :
    (∀ (p : Params) (cond tct fct : Block), 4 ≤ p.q → cond.val ≤ 1 →
      tct.val ≤ 1 → fct.val ≤ 1 →
      ∃ r, booleanIfThenElse p cond tct fct = some r ∧
        r.val = if cond.val = 1 then tct.val else fct.val) ∧
    (∀ (p : Params) (cond : Block) (t f : List Block),
      2 ≤ p.msg → 1 ≤ p.carry → cond.val ≤ cond.degree → cond.degree ≤ 1 →
      t.length = f.length →
      (∀ b ∈ t, b.val ≤ b.degree ∧ b.degree < p.msg) →
      (∀ b ∈ f, b.val ≤ b.degree ∧ b.degree < p.msg) →
      (ifThenElseCtCt p cond t f).length = t.length ∧
      ∀ i a b, t.get? i = some a → f.get? i = some b →
        ((ifThenElseCtCt p cond t f).get? i).map Block.val =
          some (if cond.val = 1 then a.val else b.val)) := by
  constructor
  · intro p cond tct fct hq4 hc ht hf
    have hlog : 2 ≤ Nat.log2 p.q := by
      rw [Nat.le_log2 (by omega)]
      omega
    simp only [booleanIfThenElse]
    rw [if_pos hlog]
    refine ⟨_, rfl, ?_⟩
    simp only [applyLut_val, blockAdd_val, scalarMulBlock_val]
    rw [booleanBitnot_val_small p cond hc (by omega)]
    have e1 : cond.val * 2 % p.q = cond.val * 2 := Nat.mod_eq_of_lt (by omega)
    have e3 : (1 - cond.val) * 2 % p.q = (1 - cond.val) * 2 :=
      Nat.mod_eq_of_lt (by omega)
    rw [e1, e3]
    have e2 : (cond.val * 2 + tct.val) % p.q = cond.val * 2 + tct.val :=
      Nat.mod_eq_of_lt (by omega)
    have e4 : ((1 - cond.val) * 2 + fct.val) % p.q =
        (1 - cond.val) * 2 + fct.val := Nat.mod_eq_of_lt (by omega)
    rw [e2, e4]
    have hzl : booleanZeroLut (cond.val * 2 + tct.val) =
        if cond.val = 1 then tct.val else 0 := by
      rcases (show cond.val = 0 ∨ cond.val = 1 by omega) with h | h <;>
        rcases (show tct.val = 0 ∨ tct.val = 1 by omega) with h2 | h2 <;>
        rw [h, h2] <;> decide
    have hzr : booleanZeroLut ((1 - cond.val) * 2 + fct.val) =
        if cond.val = 1 then 0 else fct.val := by
      rcases (show cond.val = 0 ∨ cond.val = 1 by omega) with h | h <;>
        rcases (show fct.val = 0 ∨ fct.val = 1 by omega) with h2 | h2 <;>
        rw [h, h2] <;> decide
    rw [hzl, hzr]
    rcases (show cond.val = 0 ∨ cond.val = 1 by omega) with h | h
    · rw [h]
      norm_num
      simp only [Nat.mod_eq_of_lt (show fct.val < p.q by omega)]
      rw [Nat.mod_eq_of_lt (show fct.val < 2 by omega)]
      exact Nat.mod_eq_of_lt (by omega)
    · rw [h]
      norm_num
      simp only [Nat.mod_eq_of_lt (show tct.val < p.q by omega)]
      rw [Nat.mod_eq_of_lt (show tct.val < 2 by omega)]
      exact Nat.mod_eq_of_lt (by omega)
  · intro p cond t f hmsg hcar hcv hcd hlen ht hf
    have hmq : p.msg ≤ p.q := by
      have h1 : p.msg * 1 ≤ p.msg * p.carry := Nat.mul_le_mul le_rfl hcar
      have h2 : p.q = p.msg * p.carry := rfl
      omega
    have hnt : normalizeCarries p t = t :=
      normalizeCarries_id p t fun b hb => (ht b hb).2
    have hnf : normalizeCarries p f = f :=
      normalizeCarries_id p f fun b hb => (hf b hb).2
    have hmain : ifThenElseCtCt p cond t f =
        List.zipWith (combineClean p)
          (zeroOutIf p (normalizeCarries p t) cond fun x => !(x == 1)).1
          (zeroOutIf p (normalizeCarries p f) cond fun x => x == 1).1 := rfl
    rw [hnt, hnf] at hmain
    constructor
    · rw [hmain, List.length_zipWith, zeroOutIf_length, zeroOutIf_length]
      omega
    · intro i a b hia hib
      have hta : ∃ a', (zeroOutIf p t cond fun x => !(x == 1)).1.get? i =
          some a' ∧ a'.val = if cond.val = 1 then a.val else 0 := by
        by_cases h0 : cond.degree = 0
        · have hcv0 : cond.val = 0 := by omega
          have hz : (zeroOutIf p t cond fun x => !(x == 1)).1 =
              t.map fun _ => trivialZeroBlock := by
            simp [zeroOutIf, h0]
          rw [hz, List.get?_map, hia]
          refine ⟨trivialZeroBlock, rfl, ?_⟩
          rw [hcv0]
          rfl
        · rw [show (zeroOutIf p t cond fun x => !(x == 1)).1 =
              t.map (fun b => if b.degree = 0 then b
                else applyBivLut p
                  (fun bl c => if !(c == 1) then 0 else bl) b cond) from by
            unfold zeroOutIf
            rw [if_neg h0]]
          rw [List.get?_map, hia, Option.map_some']
          by_cases hd : a.degree = 0
          · refine ⟨a, by rw [if_pos hd], ?_⟩
            have hav : a.val = 0 := by
              have := (ht a (List.get?_mem hia)).1
              omega
            rw [hav]
            by_cases hc1 : cond.val = 1 <;> simp [hc1]
          · refine ⟨_, by rw [if_neg hd], ?_⟩
            rw [applyBivLut_val]
            have hav := (ht a (List.get?_mem hia)).1
            have havm := (ht a (List.get?_mem hia)).2
            by_cases hc1 : cond.val = 1
            · rw [hc1]
              norm_num
              exact Nat.mod_eq_of_lt (by omega)
            · have hbe : (cond.val == 1) = false := by
                simp [hc1]
              rw [hbe, if_neg hc1]
              simp
      have hfb : ∃ b', (zeroOutIf p f cond fun x => x == 1).1.get? i =
          some b' ∧ b'.val = if cond.val = 1 then 0 else b.val := by
        by_cases h0 : cond.degree = 0
        · have hcv0 : cond.val = 0 := by omega
          have hz : (zeroOutIf p f cond fun x => x == 1).1 = f := by
            simp [zeroOutIf, h0]
          rw [hz, hib]
          refine ⟨b, rfl, ?_⟩
          rw [hcv0]
          rfl
        · rw [show (zeroOutIf p f cond fun x => x == 1).1 =
              f.map (fun b => if b.degree = 0 then b
                else applyBivLut p
                  (fun bl c => if c == 1 then 0 else bl) b cond) from by
            unfold zeroOutIf
            rw [if_neg h0]]
          rw [List.get?_map, hib, Option.map_some']
          by_cases hd : b.degree = 0
          · refine ⟨b, by rw [if_pos hd], ?_⟩
            have hbv : b.val = 0 := by
              have := (hf b (List.get?_mem hib)).1
              omega
            rw [hbv]
            by_cases hc1 : cond.val = 1 <;> simp [hc1]
          · refine ⟨_, by rw [if_neg hd], ?_⟩
            rw [applyBivLut_val]
            have hbv := (hf b (List.get?_mem hib)).1
            have hbvm := (hf b (List.get?_mem hib)).2
            by_cases hc1 : cond.val = 1
            · rw [hc1]
              simp
            · have hbe : (cond.val == 1) = false := by
                simp [hc1]
              rw [hbe, if_neg hc1]
              norm_num
              exact Nat.mod_eq_of_lt (by omega)
      obtain ⟨a', ha', hav'⟩ := hta
      obtain ⟨b', hb', hbv'⟩ := hfb
      rw [hmain, get?_zipWith, ha', hb']
      rw [Option.some_bind, Option.map_some', Option.map_some']
      rw [combineClean_val, hav', hbv']
      by_cases hc1 : cond.val = 1
      · rw [if_pos hc1, if_pos hc1, if_pos hc1]
        have h1 := (ht a (List.get?_mem hia)).1
        have h2 := (ht a (List.get?_mem hia)).2
        rw [Nat.add_zero, Nat.mod_eq_of_lt (show a.val < p.q by omega),
          Nat.mod_eq_of_lt (show a.val < p.msg by omega),
          Nat.mod_eq_of_lt (show a.val < p.q by omega)]
      · rw [if_neg hc1, if_neg hc1, if_neg hc1]
        have h1 := (hf b (List.get?_mem hib)).1
        have h2 := (hf b (List.get?_mem hib)).2
        rw [Nat.zero_add, Nat.mod_eq_of_lt (show b.val < p.q by omega),
          Nat.mod_eq_of_lt (show b.val < p.msg by omega),
          Nat.mod_eq_of_lt (show b.val < p.q by omega)]

/-- Concrete instantiation of the selection-correctness theorem: boolean
path at `(cond, a, b) = (1, 1, 0)` and radix path on one-block operands
carrying 1 and 0 with selector 1: both select the true operand. -/
theorem if_then_else_selects_witness :
    (∃ r, booleanIfThenElse ⟨2, 2⟩ ⟨1, 1⟩ ⟨1, 1⟩ ⟨0, 1⟩ = some r ∧
      r.val = 1) ∧
    ((ifThenElseCtCt ⟨2, 2⟩ ⟨1, 1⟩ [⟨1, 1⟩] [⟨0, 1⟩]).get? 0).map Block.val =
      some 1 := by
  constructor
  · obtain ⟨r, h1, h2⟩ := if_then_else_selects.1 ⟨2, 2⟩ ⟨1, 1⟩ ⟨1, 1⟩ ⟨0, 1⟩
      (by decide) (by decide) (by decide) (by decide)
    exact ⟨r, h1, by simpa using h2⟩
  · have h := (if_then_else_selects.2 ⟨2, 2⟩ ⟨1, 1⟩ [⟨1, 1⟩] [⟨0, 1⟩]
      (by decide) (by decide) (by decide) (by decide) (by decide)
      (by decide) (by decide)).2 0 ⟨1, 1⟩ ⟨0, 1⟩ rfl rfl
    simpa using h

end TfheCore
